import Mathlib

/-!
Verification of the graphc library: a graph data structure with
symmetric adjacency sets and a two-phase heuristic vertex coloring
algorithm (degeneracy-ordering elimination followed by greedy
assignment in reverse elimination order).

The embedding follows src/lib.rs.  Node identifiers are natural
numbers (NodeId wraps a usize index), the node table is a list of
adjacency sets (TVec of TBitSet), and bit sets are finite sets of
naturals; bit set iteration visits members in ascending order.
usize arithmetic never overflows on realizable graphs; theorems about
the coloring engine therefore carry an explicit size hypothesis
keeping degree + 1 below usize::MAX.
-/

namespace Graphc

/-- Value of usize::max_value() on a 64-bit target. -/
def usizeMax : Nat := 2 ^ 64 - 1

/-- An undirected graph made of nodes connected by edges.
The node table is a list of per-node adjacency sets. -/
structure Graph where
  nodes : List (Finset Nat)
deriving DecidableEq

/-- Creates a new empty graph. -/
def Graph.new : Graph := ⟨[]⟩

/-- Appends a fresh node with an empty adjacency set.
The new node's id is the previous length of the node table. -/
def Graph.addNode (g : Graph) : Graph := ⟨g.nodes ++ [∅]⟩

/-- Applies f to the adjacency set stored at index i
(mutation of nodes[i], a no-op when i is out of range). -/
def setAdj (l : List (Finset Nat)) (i : Nat) (f : Finset Nat → Finset Nat) :
    List (Finset Nat) :=
  l.set i (f (l.getD i ∅))

/-- Adds an edge between a and b; edges with a = b are ignored. -/
def Graph.addEdge (g : Graph) (a b : Nat) : Graph :=
  if a ≠ b then
    ⟨setAdj (setAdj g.nodes a (fun s => insert b s)) b (fun s => insert a s)⟩
  else g

/-- Removes the edge between a and b. -/
def Graph.removeEdge (g : Graph) (a b : Nat) : Graph :=
  ⟨setAdj (setAdj g.nodes a (fun s => s.erase b)) b (fun s => s.erase a)⟩

/-- The property asserted by check_invariants: every stored neighbor
index is within the node-table bound and adjacency is symmetric. -/
def Graph.checkInvariants (g : Graph) : Prop :=
  ∀ a ∈ Finset.range g.nodes.length, ∀ b ∈ g.nodes.getD a ∅,
    b < g.nodes.length ∧ a ∈ g.nodes.getD b ∅

instance (g : Graph) : Decidable g.checkInvariants := by
  unfold Graph.checkInvariants
  exact inferInstance

/-- A valid coloring for a given graph: the amount k of unique colors
needed and the color of each node, inside of the range 0..k. -/
structure Coloring where
  k : Nat
  nodes : List Nat
deriving DecidableEq

/-- State of the phase-1 elimination loop of minimal_coloring:
current color bound k, stack of popped nodes in pop order, the
mutated working adjacency, and the set of alive nodes. -/
structure P1State where
  k : Nat
  stack : List Nat
  graph : List (Finset Nat)
  alive : Finset Nat
deriving DecidableEq

/-- Degree of a node in a working adjacency table
(element_count of the node's bit set). -/
def degOf (graph : List (Finset Nat)) (node : Nat) : Nat :=
  (graph.getD node ∅).card

/-- The first alive node (in ascending id order, as bit set iteration
visits them) whose working degree is below k, if any. -/
def popCandidate (s : P1State) : Option Nat :=
  let c := s.alive.filter fun node => degOf s.graph node < s.k
  if h : c.Nonempty then some (c.min' h) else none

/-- The running minimum min_k computed by a full scan of the alive
nodes: starting from usize::max_value(), each alive node lowers it to
its degree + 1 whenever that is strictly smaller.  The scan's result
is independent of iteration order, so it is a commutative fold. -/
def minKFold (s : P1State) : Nat :=
  Finset.fold min usizeMax (fun node => degOf s.graph node + 1) s.alive

/-- Removes a popped node from the adjacency set of every alive node;
the sets of dead nodes (the popped node included) stay frozen. -/
def removeNode (graph : List (Finset Nat)) (alive : Finset Nat) (node : Nat) :
    List (Finset Nat) :=
  (List.range graph.length).map fun i =>
    if i ∈ alive then (graph.getD i ∅).erase node else graph.getD i ∅

/-- One iteration of the phase-1 outer loop: pop the first alive node
with fewer than k alive neighbors, or, when none exists, raise k to
the scanned minimum. -/
def p1Step (s : P1State) : P1State :=
  match popCandidate s with
  | some node =>
    let alive' := s.alive.erase node
    { k := s.k, stack := s.stack ++ [node],
      graph := removeNode s.graph alive' node, alive := alive' }
  | none => { s with k := minKFold s }

/-- The phase-1 outer loop, with explicit fuel bounding the number of
iterations; none models non-termination within the given fuel. -/
def phase1 : Nat → P1State → Option P1State
  | 0, s => if s.alive = ∅ then some s else none
  | f + 1, s => if s.alive = ∅ then some s else phase1 f (p1Step s)

/-- The phase-2 loop: nodes are taken in reverse pop order (the given
list is the reversed stack) and each receives the smallest color of
0..k not used by a neighbor recorded in its frozen working adjacency;
none models the panic of the unwrap when no color is free. -/
def assignColors (k : Nat) (graph : List (Finset Nat)) :
    List Nat → List Nat → Option (List Nat)
  | [], colors => some colors
  | node :: rest, colors =>
    let allowed :=
      Finset.range k \ (graph.getD node ∅).image fun other => colors.getD other usizeMax
    if h : allowed.Nonempty then
      assignColors k graph rest (colors.set node (allowed.min' h))
    else none

/-- Initial phase-1 state of minimal_coloring: k = 0, empty stack, a
clone of the adjacency table, and all nodes alive. -/
def initState (g : Graph) : P1State :=
  { k := 0, stack := [], graph := g.nodes, alive := Finset.range g.nodes.length }

/-- Computes the minimal coloring for a graph.  The invariant check
panicking, phase 1 failing to terminate within its fuel (which never
happens) and the unwrap in phase 2 failing are all modelled as none.
Fuel 2 * n suffices because every iteration either pops a node or
raises k, and a raise is always immediately followed by a pop. -/
def minimalColoring (g : Graph) : Option Coloring :=
  if g.checkInvariants then
    match phase1 (2 * g.nodes.length) (initState g) with
    | none => none
    | some s =>
      match assignColors s.k s.graph s.stack.reverse
          (List.replicate s.graph.length usizeMax) with
      | none => none
      | some colors => some ⟨s.k, colors⟩
  else none

/-- Modelled from the spec (claim C5 reference definition): each
popped node receives the smallest color of 0..k not among the colors
already assigned to its neighbors in the original, pre-elimination
adjacency, where a neighbor still carrying the unassigned sentinel
imposes no restriction. -/
def specAssign (k : Nat) (orig : List (Finset Nat)) :
    List Nat → List Nat → Option (List Nat)
  | [], colors => some colors
  | node :: rest, colors =>
    let assigned :=
      ((orig.getD node ∅).image fun other => colors.getD other usizeMax).erase usizeMax
    let allowed := Finset.range k \ assigned
    if h : allowed.Nonempty then
      specAssign k orig rest (colors.set node (allowed.min' h))
    else none

/-- Graphs reachable from the empty graph by the public operations;
add_edge and remove_edge require valid node ids (out-of-range ids
panic in the Rust source). -/
inductive Reachable : Graph → Prop
  | new : Reachable Graph.new
  | addNode {g : Graph} : Reachable g → Reachable g.addNode
  | addEdge {g : Graph} {a b : Nat} : Reachable g →
      a < g.nodes.length → b < g.nodes.length → Reachable (g.addEdge a b)
  | removeEdge {g : Graph} {a b : Nat} : Reachable g →
      a < g.nodes.length → b < g.nodes.length → Reachable (g.removeEdge a b)

/-- Maximum node degree of a graph (0 for the empty graph). -/
def maxDegree (g : Graph) : Nat :=
  (Finset.range g.nodes.length).sup fun i => (g.nodes.getD i ∅).card

/-- The graph with n nodes and no edges. -/
def edgeless (n : Nat) : Graph := ⟨List.replicate n ∅⟩

/-- Unbounded form of the adjacency invariant: every stored neighbor
is in bounds and adjacency is symmetric (indices past the node table
hold the empty set by convention of getD). -/
def GoodAdj (g : Graph) : Prop :=
  ∀ a : Nat, ∀ b ∈ g.nodes.getD a ∅, b < g.nodes.length ∧ a ∈ g.nodes.getD b ∅

/-- No node is its own neighbor. -/
def NoSelfLoop (g : Graph) : Prop :=
  ∀ a : Nat, a ∉ g.nodes.getD a ∅

/-- Invariant of the phase-1 elimination loop, relative to the
original adjacency table orig: the working table keeps orig's length;
alive and stack partition the node ids; the working set of an alive
node is its original set minus all popped nodes; the working set of a
popped node is frozen at its pop time (its original set minus the
nodes popped before it) and its size is below the current k; k is 0
or bounded by some original degree + 1. -/
structure Inv (orig : List (Finset Nat)) (s : P1State) : Prop where
  glen : s.graph.length = orig.length
  aliveLt : ∀ i ∈ s.alive, i < orig.length
  stackLt : ∀ i ∈ s.stack, i < orig.length
  nodup : s.stack.Nodup
  disj : ∀ i ∈ s.stack, i ∉ s.alive
  cover : ∀ i, i < orig.length → i ∈ s.alive ∨ i ∈ s.stack
  aliveG : ∀ i ∈ s.alive, s.graph.getD i ∅ = orig.getD i ∅ \ s.stack.toFinset
  deadG : ∀ s₁ i s₂, s.stack = s₁ ++ i :: s₂ →
    s.graph.getD i ∅ = orig.getD i ∅ \ s₁.toFinset
  popDeg : ∀ s₁ i s₂, s.stack = s₁ ++ i :: s₂ → (s.graph.getD i ∅).card < s.k
  kProp : s.k = 0 ∨ ∃ i, i < orig.length ∧ s.k ≤ (orig.getD i ∅).card + 1

/-! Helper lemmas about list indexing with getD. -/

theorem getD_congr {α : Type} (l : List α) {i : Nat} (h : i < l.length) (d d' : α) :
    l.getD i d = l.getD i d' := by
  rw [List.getD_eq_getElem?_getD, List.getD_eq_getElem?_getD, List.getElem?_eq_getElem h]
  rfl

theorem getD_set_self {α : Type} {l : List α} {i : Nat} {d : α} (h : i < l.length)
    (v : α) : (l.set i v).getD i d = v := by
  rw [List.getD_eq_getElem?_getD, List.getElem?_set]
  simp [h]

theorem getD_set_ne {α : Type} {l : List α} {i j : Nat} {d : α} (h : i ≠ j) (v : α) :
    (l.set i v).getD j d = l.getD j d := by
  rw [List.getD_eq_getElem?_getD, List.getElem?_set, if_neg h, ← List.getD_eq_getElem?_getD]

theorem getD_replicate {α : Type} (n i : Nat) (d : α) :
    (List.replicate n d).getD i d = d := by
  rw [List.getD_eq_getElem?_getD, List.getElem?_replicate]
  split <;> rfl

theorem setAdj_length (l : List (Finset Nat)) (i : Nat) (f : Finset Nat → Finset Nat) :
    (setAdj l i f).length = l.length :=
  List.length_set l i _

theorem setAdj_getD_self {l : List (Finset Nat)} {i : Nat} (h : i < l.length)
    (f : Finset Nat → Finset Nat) : (setAdj l i f).getD i ∅ = f (l.getD i ∅) :=
  getD_set_self h _

theorem setAdj_getD_ne {l : List (Finset Nat)} {i j : Nat} (h : i ≠ j)
    (f : Finset Nat → Finset Nat) : (setAdj l i f).getD j ∅ = l.getD j ∅ :=
  getD_set_ne h _

theorem removeNode_length (g : List (Finset Nat)) (alive : Finset Nat) (node : Nat) :
    (removeNode g alive node).length = g.length := by
  simp [removeNode]

theorem removeNode_getD (g : List (Finset Nat)) (alive : Finset Nat) (node j : Nat) :
    (removeNode g alive node).getD j ∅ =
      if j < g.length then
        (if j ∈ alive then (g.getD j ∅).erase node else g.getD j ∅)
      else ∅ := by
  by_cases hj : j < g.length
  · rw [List.getD_eq_getElem?_getD]
    unfold removeNode
    rw [List.getElem?_map, List.getElem?_range hj]
    simp [hj]
  · rw [List.getD_eq_default, if_neg hj]
    rw [removeNode_length]
    exact Nat.le_of_not_lt hj

/-! Helper lemmas about list decompositions. -/

theorem concat_decomp {l s₁ s₂ : List Nat} {x i : Nat}
    (h : l ++ [x] = s₁ ++ i :: s₂) :
    (s₁ = l ∧ i = x ∧ s₂ = []) ∨ ∃ s₃, s₂ = s₃ ++ [x] ∧ l = s₁ ++ i :: s₃ := by
  rcases List.eq_nil_or_concat s₂ with rfl | ⟨s₃, y, rfl⟩
  · left
    obtain ⟨h1, h2⟩ := List.append_inj' h (by simp)
    have h3 : x = i := by simpa using h2
    exact ⟨h1.symm, h3.symm, rfl⟩
  · right
    rw [List.concat_eq_append] at h
    have h' : l ++ [x] = (s₁ ++ i :: s₃) ++ [y] := by
      rw [h]
      simp
    obtain ⟨h1, h2⟩ := List.append_inj' h' (by simp)
    have h3 : x = y := by simpa using h2
    exact ⟨s₃, by rw [List.concat_eq_append, h3], h1⟩

theorem mem_split_order {l : List Nat} {a b : Nat} (ha : a ∈ l) (hb : b ∈ l)
    (hne : a ≠ b) :
    (∃ s₁ s₂, l = s₁ ++ a :: s₂ ∧ b ∈ s₂) ∨
    (∃ s₁ s₂, l = s₁ ++ b :: s₂ ∧ a ∈ s₂) := by
  induction l with
  | nil => cases ha
  | cons x xs ih =>
    rcases List.mem_cons.mp ha with rfl | ha'
    · left
      refine ⟨[], xs, rfl, ?_⟩
      rcases List.mem_cons.mp hb with h | h
      · exact absurd h.symm hne
      · exact h
    · rcases List.mem_cons.mp hb with rfl | hb'
      · right
        exact ⟨[], xs, rfl, ha'⟩
      · rcases ih ha' hb' with ⟨s₁, s₂, rfl, hm⟩ | ⟨s₁, s₂, rfl, hm⟩
        · left
          exact ⟨x :: s₁, s₂, rfl, hm⟩
        · right
          exact ⟨x :: s₁, s₂, rfl, hm⟩

theorem reverse_split {l s₁ s₂ : List Nat} {x : Nat} (h : l = s₁ ++ x :: s₂) :
    l.reverse = s₂.reverse ++ x :: s₁.reverse := by
  subst h
  simp

theorem reverse_split_rev {l l₁ l₂ : List Nat} {x : Nat}
    (h : l.reverse = l₁ ++ x :: l₂) : l = l₂.reverse ++ x :: l₁.reverse := by
  have := reverse_split h
  simpa using this

/-! Per-index characterization of the graph mutations. -/

theorem Graph.addEdge_self (g : Graph) (a : Nat) : g.addEdge a a = g := by
  simp [Graph.addEdge]

theorem addEdge_length (g : Graph) (a b : Nat) :
    (g.addEdge a b).nodes.length = g.nodes.length := by
  by_cases h : a = b
  · rw [h, Graph.addEdge_self]
  · simp [Graph.addEdge, h, setAdj_length]

theorem addEdge_nodes {g : Graph} {a b : Nat} (hne : a ≠ b) :
    (g.addEdge a b).nodes =
      setAdj (setAdj g.nodes a fun s => insert b s) b fun s => insert a s := by
  unfold Graph.addEdge
  rw [if_pos hne]

theorem addEdge_getD_a {g : Graph} {a b : Nat} (hne : a ≠ b)
    (ha : a < g.nodes.length) :
    (g.addEdge a b).nodes.getD a ∅ = insert b (g.nodes.getD a ∅) := by
  rw [addEdge_nodes hne, setAdj_getD_ne (Ne.symm hne), setAdj_getD_self ha]

theorem addEdge_getD_b {g : Graph} {a b : Nat} (hne : a ≠ b)
    (hb : b < g.nodes.length) :
    (g.addEdge a b).nodes.getD b ∅ = insert a (g.nodes.getD b ∅) := by
  rw [addEdge_nodes hne, setAdj_getD_self (by rw [setAdj_length]; exact hb),
    setAdj_getD_ne hne]

theorem addEdge_getD_other {g : Graph} {a b x : Nat} (hxa : x ≠ a) (hxb : x ≠ b) :
    (g.addEdge a b).nodes.getD x ∅ = g.nodes.getD x ∅ := by
  by_cases h : a = b
  · rw [h, Graph.addEdge_self]
  · rw [addEdge_nodes h, setAdj_getD_ne (Ne.symm hxb), setAdj_getD_ne (Ne.symm hxa)]

theorem removeEdge_length (g : Graph) (a b : Nat) :
    (g.removeEdge a b).nodes.length = g.nodes.length := by
  simp [Graph.removeEdge, setAdj_length]

theorem removeEdge_getD_a {g : Graph} {a b : Nat} (hne : a ≠ b)
    (ha : a < g.nodes.length) :
    (g.removeEdge a b).nodes.getD a ∅ = (g.nodes.getD a ∅).erase b := by
  show (setAdj (setAdj g.nodes a fun s => s.erase b) b fun s => s.erase a).getD a ∅ = _
  rw [setAdj_getD_ne (Ne.symm hne), setAdj_getD_self ha]

theorem removeEdge_getD_b {g : Graph} {a b : Nat} (hne : a ≠ b)
    (hb : b < g.nodes.length) :
    (g.removeEdge a b).nodes.getD b ∅ = (g.nodes.getD b ∅).erase a := by
  show (setAdj (setAdj g.nodes a fun s => s.erase b) b fun s => s.erase a).getD b ∅ = _
  rw [setAdj_getD_self (by rw [setAdj_length]; exact hb), setAdj_getD_ne hne]

theorem removeEdge_getD_self {g : Graph} {a : Nat} (ha : a < g.nodes.length) :
    (g.removeEdge a a).nodes.getD a ∅ = (g.nodes.getD a ∅).erase a := by
  show (setAdj (setAdj g.nodes a fun s => s.erase a) a fun s => s.erase a).getD a ∅ = _
  rw [setAdj_getD_self (by rw [setAdj_length]; exact ha), setAdj_getD_self ha,
    Finset.erase_idem]

theorem removeEdge_getD_other {g : Graph} {a b x : Nat} (hxa : x ≠ a) (hxb : x ≠ b) :
    (g.removeEdge a b).nodes.getD x ∅ = g.nodes.getD x ∅ := by
  show (setAdj (setAdj g.nodes a fun s => s.erase b) b fun s => s.erase a).getD x ∅ = _
  rw [setAdj_getD_ne (Ne.symm hxb), setAdj_getD_ne (Ne.symm hxa)]

theorem setAdj_getD_subset {l : List (Finset Nat)} {i : Nat}
    {f : Finset Nat → Finset Nat} (hf : ∀ s, f s ⊆ s) (x : Nat) :
    (setAdj l i f).getD x ∅ ⊆ l.getD x ∅ := by
  by_cases hx : x = i
  · subst hx
    by_cases hi : x < l.length
    · rw [setAdj_getD_self hi]
      exact hf _
    · unfold setAdj
      rw [List.set_eq_of_length_le (Nat.le_of_not_lt hi)]
  · rw [setAdj_getD_ne (fun h => hx h.symm)]

theorem removeEdge_getD_subset (g : Graph) (a b x : Nat) :
    (g.removeEdge a b).nodes.getD x ∅ ⊆ g.nodes.getD x ∅ := by
  show (setAdj (setAdj g.nodes a fun s => s.erase b) b fun s => s.erase a).getD x ∅ ⊆ _
  exact (setAdj_getD_subset (fun s => Finset.erase_subset _ s) x).trans
    (setAdj_getD_subset (fun s => Finset.erase_subset _ s) x)

theorem appendEmpty_getD (l : List (Finset Nat)) (a : Nat) :
    (l ++ [∅]).getD a ∅ = l.getD a ∅ := by
  rcases Nat.lt_trichotomy a l.length with h | h | h
  · rw [List.getD_eq_getElem?_getD, List.getElem?_append_left h,
      ← List.getD_eq_getElem?_getD]
  · subst h
    rw [List.getD_eq_getElem?_getD, List.getElem?_append_right (Nat.le_refl _),
      List.getD_eq_default _ _ (Nat.le_refl _)]
    simp
  · rw [List.getD_eq_default _ _ (by simp; omega), List.getD_eq_default _ _ (Nat.le_of_lt h)]

theorem list_ext_getD {l l' : List (Finset Nat)} (hlen : l.length = l'.length)
    (h : ∀ x, l.getD x ∅ = l'.getD x ∅) : l = l' := by
  apply List.ext_getElem?
  intro n
  by_cases hn : n < l.length
  · have hn' : n < l'.length := hlen ▸ hn
    rw [List.getElem?_eq_getElem hn, List.getElem?_eq_getElem hn']
    have hx := h n
    rw [List.getD_eq_getElem?_getD, List.getD_eq_getElem?_getD,
      List.getElem?_eq_getElem hn, List.getElem?_eq_getElem hn'] at hx
    simpa using hx
  · rw [List.getElem?_eq_none (Nat.le_of_not_lt hn),
      List.getElem?_eq_none (hlen ▸ Nat.le_of_not_lt hn)]

/-! Preservation of the adjacency invariants by the public operations. -/

theorem goodAdj_new : GoodAdj Graph.new := by
  intro a b hb
  rw [List.getD_eq_default _ _ (Nat.zero_le a)] at hb
  exact absurd hb (Finset.not_mem_empty b)

theorem goodAdj_addNode {g : Graph} (h : GoodAdj g) : GoodAdj g.addNode := by
  intro a b hb
  have hnodes : g.addNode.nodes = g.nodes ++ [∅] := rfl
  rw [hnodes, appendEmpty_getD] at hb
  obtain ⟨h1, h2⟩ := h a b hb
  constructor
  · rw [hnodes, List.length_append]
    omega
  · rw [hnodes, appendEmpty_getD]
    exact h2

theorem addEdge_getD_superset {g : Graph} {a b : Nat} (ha : a < g.nodes.length)
    (hb : b < g.nodes.length) (x : Nat) :
    g.nodes.getD x ∅ ⊆ (g.addEdge a b).nodes.getD x ∅ := by
  by_cases hne : a = b
  · rw [hne, Graph.addEdge_self]
  by_cases hxa : x = a
  · subst hxa
    rw [addEdge_getD_a hne ha]
    exact Finset.subset_insert _ _
  by_cases hxb : x = b
  · subst hxb
    rw [addEdge_getD_b hne hb]
    exact Finset.subset_insert _ _
  · rw [addEdge_getD_other hxa hxb]

theorem goodAdj_addEdge {g : Graph} {a b : Nat} (h : GoodAdj g)
    (ha : a < g.nodes.length) (hb : b < g.nodes.length) :
    GoodAdj (g.addEdge a b) := by
  by_cases hne : a = b
  · rw [hne, Graph.addEdge_self]
    exact h
  intro x c hc
  rw [addEdge_length]
  by_cases hxa : x = a
  · subst hxa
    rw [addEdge_getD_a hne ha] at hc
    rcases Finset.mem_insert.mp hc with rfl | hc'
    · refine ⟨hb, ?_⟩
      rw [addEdge_getD_b hne hb]
      exact Finset.mem_insert_self _ _
    · obtain ⟨h1, h2⟩ := h x c hc'
      exact ⟨h1, addEdge_getD_superset ha hb c h2⟩
  by_cases hxb : x = b
  · subst hxb
    rw [addEdge_getD_b hne hb] at hc
    rcases Finset.mem_insert.mp hc with rfl | hc'
    · refine ⟨ha, ?_⟩
      rw [addEdge_getD_a hne ha]
      exact Finset.mem_insert_self _ _
    · obtain ⟨h1, h2⟩ := h x c hc'
      exact ⟨h1, addEdge_getD_superset ha hb c h2⟩
  · rw [addEdge_getD_other hxa hxb] at hc
    obtain ⟨h1, h2⟩ := h x c hc
    exact ⟨h1, addEdge_getD_superset ha hb c h2⟩

theorem goodAdj_removeEdge {g : Graph} {a b : Nat} (h : GoodAdj g)
    (ha : a < g.nodes.length) (hb : b < g.nodes.length) :
    GoodAdj (g.removeEdge a b) := by
  intro x c hc
  have hc' : c ∈ g.nodes.getD x ∅ := removeEdge_getD_subset g a b x hc
  obtain ⟨h1, h2⟩ := h x c hc'
  refine ⟨by rw [removeEdge_length]; exact h1, ?_⟩
  by_cases hab : a = b
  · subst hab
    by_cases hca : c = a
    · subst hca
      rw [removeEdge_getD_self ha, Finset.mem_erase]
      refine ⟨?_, h2⟩
      intro hxa
      subst hxa
      rw [removeEdge_getD_self ha] at hc
      exact absurd hc (Finset.not_mem_erase _ _)
    · rw [removeEdge_getD_other hca hca]
      exact h2
  · by_cases hca : c = a
    · subst hca
      rw [removeEdge_getD_a hab ha, Finset.mem_erase]
      refine ⟨?_, h2⟩
      intro hxb
      subst hxb
      rw [removeEdge_getD_b hab hb] at hc
      exact absurd hc (Finset.not_mem_erase _ _)
    by_cases hcb : c = b
    · subst hcb
      rw [removeEdge_getD_b hab hb, Finset.mem_erase]
      refine ⟨?_, h2⟩
      intro hxa
      subst hxa
      rw [removeEdge_getD_a hab ha] at hc
      exact absurd hc (Finset.not_mem_erase _ _)
    · rw [removeEdge_getD_other hca hcb]
      exact h2

theorem reachable_goodAdj {g : Graph} (h : Reachable g) : GoodAdj g := by
  induction h with
  | new => exact goodAdj_new
  | addNode _ ih => exact goodAdj_addNode ih
  | addEdge _ ha hb ih => exact goodAdj_addEdge ih ha hb
  | removeEdge _ ha hb ih => exact goodAdj_removeEdge ih ha hb

theorem noSelfLoop_new : NoSelfLoop Graph.new := by
  intro a
  rw [List.getD_eq_default _ _ (Nat.zero_le a)]
  exact Finset.not_mem_empty a

theorem noSelfLoop_addNode {g : Graph} (h : NoSelfLoop g) : NoSelfLoop g.addNode := by
  intro a
  have hnodes : g.addNode.nodes = g.nodes ++ [∅] := rfl
  rw [hnodes, appendEmpty_getD]
  exact h a

theorem noSelfLoop_addEdge {g : Graph} {a b : Nat} (h : NoSelfLoop g)
    (ha : a < g.nodes.length) (hb : b < g.nodes.length) :
    NoSelfLoop (g.addEdge a b) := by
  by_cases hne : a = b
  · rw [hne, Graph.addEdge_self]
    exact h
  intro x
  by_cases hxa : x = a
  · subst hxa
    rw [addEdge_getD_a hne ha, Finset.mem_insert]
    rintro (rfl | hx)
    · exact hne rfl
    · exact h x hx
  by_cases hxb : x = b
  · subst hxb
    rw [addEdge_getD_b hne hb, Finset.mem_insert]
    rintro (rfl | hx)
    · exact hne rfl
    · exact h x hx
  · rw [addEdge_getD_other hxa hxb]
    exact h x

theorem noSelfLoop_removeEdge {g : Graph} (h : NoSelfLoop g) (a b : Nat) :
    NoSelfLoop (g.removeEdge a b) := by
  intro x hx
  exact h x (removeEdge_getD_subset g a b x hx)

theorem reachable_noSelfLoop {g : Graph} (h : Reachable g) : NoSelfLoop g := by
  induction h with
  | new => exact noSelfLoop_new
  | addNode _ ih => exact noSelfLoop_addNode ih
  | addEdge _ ha hb ih => exact noSelfLoop_addEdge ih ha hb
  | removeEdge _ _ _ ih => exact noSelfLoop_removeEdge ih _ _

/-! Idempotence of the edge mutations. -/

theorem addEdge_idem {g : Graph} {a b : Nat} (ha : a < g.nodes.length)
    (hb : b < g.nodes.length) : (g.addEdge a b).addEdge a b = g.addEdge a b := by
  by_cases hne : a = b
  · subst hne
    simp [Graph.addEdge_self]
  have ha' : a < (g.addEdge a b).nodes.length := by
    rw [addEdge_length]
    exact ha
  have hb' : b < (g.addEdge a b).nodes.length := by
    rw [addEdge_length]
    exact hb
  have hmain : ((g.addEdge a b).addEdge a b).nodes = (g.addEdge a b).nodes := by
    apply list_ext_getD
    · rw [addEdge_length]
    · intro x
      by_cases hxa : x = a
      · subst hxa
        rw [addEdge_getD_a hne ha', addEdge_getD_a hne ha, Finset.insert_idem]
      by_cases hxb : x = b
      · subst hxb
        rw [addEdge_getD_b hne hb', addEdge_getD_b hne hb, Finset.insert_idem]
      · rw [addEdge_getD_other hxa hxb]
  exact congrArg Graph.mk hmain

theorem removeEdge_idem {g : Graph} {a b : Nat} (ha : a < g.nodes.length)
    (hb : b < g.nodes.length) :
    (g.removeEdge a b).removeEdge a b = g.removeEdge a b := by
  have ha' : a < (g.removeEdge a b).nodes.length := by
    rw [removeEdge_length]
    exact ha
  have hb' : b < (g.removeEdge a b).nodes.length := by
    rw [removeEdge_length]
    exact hb
  have hmain : ((g.removeEdge a b).removeEdge a b).nodes = (g.removeEdge a b).nodes := by
    apply list_ext_getD
    · rw [removeEdge_length]
    · intro x
      by_cases hab : a = b
      · subst hab
        by_cases hxa : x = a
        · subst hxa
          rw [removeEdge_getD_self ha', removeEdge_getD_self ha, Finset.erase_idem]
        · rw [removeEdge_getD_other hxa hxa]
      by_cases hxa : x = a
      · subst hxa
        rw [removeEdge_getD_a hab ha', removeEdge_getD_a hab ha, Finset.erase_idem]
      by_cases hxb : x = b
      · subst hxb
        rw [removeEdge_getD_b hab hb', removeEdge_getD_b hab hb, Finset.erase_idem]
      · rw [removeEdge_getD_other hxa hxb]
  exact congrArg Graph.mk hmain

/-! Claim theorems about the graph operations. -/

/-- C4: every graph reachable from the empty graph by add_node, add_edge
and remove_edge (with valid ids) has symmetric adjacency — a is in b's
set iff b is in a's set — and every stored neighbor is within the
node-table bound, so check_invariants succeeds on it. -/
theorem reachable_invariants (g : Graph) (h : Reachable g) :
    (∀ a b : Nat, a ∈ g.nodes.getD b ∅ ↔ b ∈ g.nodes.getD a ∅) ∧
    (∀ a b : Nat, b ∈ g.nodes.getD a ∅ → b < g.nodes.length) ∧
    g.checkInvariants := by
  have hg := reachable_goodAdj h
  refine ⟨?_, ?_, ?_⟩
  · intro a b
    exact ⟨fun h' => (hg b a h').2, fun h' => (hg a b h').2⟩
  · intro a b h'
    exact (hg a b h').1
  · intro a _ b hb
    exact hg a b hb

/-- Witness for C4 at the concrete graph with two nodes and one edge. -/
theorem reachable_invariants_witness :
    (∀ a b : Nat,
        a ∈ ((Graph.new.addNode.addNode).addEdge 0 1).nodes.getD b ∅ ↔
        b ∈ ((Graph.new.addNode.addNode).addEdge 0 1).nodes.getD a ∅) ∧
    (∀ a b : Nat, b ∈ ((Graph.new.addNode.addNode).addEdge 0 1).nodes.getD a ∅ →
        b < ((Graph.new.addNode.addNode).addEdge 0 1).nodes.length) ∧
    ((Graph.new.addNode.addNode).addEdge 0 1).checkInvariants :=
  reachable_invariants _
    (Reachable.addEdge (Reachable.addNode (Reachable.addNode Reachable.new))
      (by decide) (by decide))

/-- C8: no graph reachable via the public operations stores a
self-loop, whatever edges were added. -/
theorem reachable_no_self_loop (g : Graph) (h : Reachable g) :
    ∀ a : Nat, a ∉ g.nodes.getD a ∅ :=
  reachable_noSelfLoop h

/-- Witness for C8 at a graph built with an attempted self-loop,
instantiated at the node the self-loop was attempted on. -/
theorem reachable_no_self_loop_witness :
    0 ∉ ((Graph.new.addNode).addEdge 0 0).nodes.getD 0 ∅ :=
  reachable_no_self_loop _
    (Reachable.addEdge (Reachable.addNode Reachable.new) (by decide) (by decide)) 0

/-- C9: with valid node ids, add_edge applied twice yields the same
adjacency state as applied once, and similarly for remove_edge, also
when the edge was absent to begin with. -/
theorem addEdge_removeEdge_idem (g : Graph) (a b : Nat)
    (ha : a < g.nodes.length) (hb : b < g.nodes.length) :
    (g.addEdge a b).addEdge a b = g.addEdge a b ∧
    (g.removeEdge a b).removeEdge a b = g.removeEdge a b :=
  ⟨addEdge_idem ha hb, removeEdge_idem ha hb⟩

/-- Witness for C9 on a two-node edgeless graph. -/
theorem addEdge_removeEdge_idem_witness :
    ((edgeless 2).addEdge 0 1).addEdge 0 1 = (edgeless 2).addEdge 0 1 ∧
    ((edgeless 2).removeEdge 0 1).removeEdge 0 1 = (edgeless 2).removeEdge 0 1 :=
  addEdge_removeEdge_idem (edgeless 2) 0 1 (by decide) (by decide)

/-! Properties of the min_k scan and of the pop candidate. -/

theorem minKFold_le_usizeMax (s : P1State) : minKFold s ≤ usizeMax :=
  (Finset.fold_min_le _).mpr (Or.inl le_rfl)

theorem minKFold_le {s : P1State} {node : Nat} (h : node ∈ s.alive) :
    minKFold s ≤ degOf s.graph node + 1 :=
  (Finset.fold_min_le _).mpr (Or.inr ⟨node, h, le_rfl⟩)

theorem le_minKFold {s : P1State} {m : Nat} (h1 : m ≤ usizeMax)
    (h2 : ∀ node ∈ s.alive, m ≤ degOf s.graph node + 1) : m ≤ minKFold s :=
  (Finset.le_fold_min _).mpr ⟨h1, h2⟩

theorem minKFold_eq (s : P1State) :
    minKFold s = usizeMax ∨ ∃ node ∈ s.alive, minKFold s = degOf s.graph node + 1 := by
  rcases (Finset.fold_min_le (minKFold s)).mp le_rfl with h | ⟨x, hx, hle⟩
  · exact Or.inl (le_antisymm (minKFold_le_usizeMax s) h)
  · exact Or.inr ⟨x, hx, le_antisymm (minKFold_le hx) hle⟩

theorem popCandidate_none {s : P1State} (h : popCandidate s = none) :
    ∀ node ∈ s.alive, s.k ≤ degOf s.graph node := by
  intro node hnode
  unfold popCandidate at h
  by_cases hne : (s.alive.filter fun node => degOf s.graph node < s.k).Nonempty
  · rw [dif_pos hne] at h
    cases h
  · by_contra hlt
    exact hne ⟨node, Finset.mem_filter.mpr ⟨hnode, Nat.lt_of_not_le hlt⟩⟩

theorem popCandidate_some {s : P1State} {node : Nat}
    (h : popCandidate s = some node) :
    node ∈ s.alive ∧ degOf s.graph node < s.k := by
  unfold popCandidate at h
  by_cases hne : (s.alive.filter fun node => degOf s.graph node < s.k).Nonempty
  · rw [dif_pos hne] at h
    have hmem := Finset.min'_mem _ hne
    rw [Option.some_inj.mp h] at hmem
    exact Finset.mem_filter.mp hmem
  · rw [dif_neg hne] at h
    cases h

theorem popCandidate_isSome_of {s : P1State} {node : Nat} (h1 : node ∈ s.alive)
    (h2 : degOf s.graph node < s.k) : ∃ x, popCandidate s = some x := by
  have hne : (s.alive.filter fun node => degOf s.graph node < s.k).Nonempty :=
    ⟨node, Finset.mem_filter.mpr ⟨h1, h2⟩⟩
  unfold popCandidate
  rw [dif_pos hne]
  exact ⟨_, rfl⟩

/-! Preservation of the elimination invariant by one loop iteration. -/

theorem p1Step_pop {s : P1State} {node : Nat} (h : popCandidate s = some node) :
    p1Step s = { k := s.k, stack := s.stack ++ [node],
                 graph := removeNode s.graph (s.alive.erase node) node,
                 alive := s.alive.erase node } := by
  simp only [p1Step, h]

theorem p1Step_bump {s : P1State} (h : popCandidate s = none) :
    p1Step s = { s with k := minKFold s } := by
  simp only [p1Step, h]

theorem inv_pop {orig : List (Finset Nat)} {s : P1State} (hInv : Inv orig s)
    {node : Nat} (hpop : popCandidate s = some node) :
    Inv orig (p1Step s) ∧ (p1Step s).k = s.k ∧
      (p1Step s).alive = s.alive.erase node ∧
      (p1Step s).stack = s.stack ++ [node] := by
  obtain ⟨hmem, hdeg⟩ := popCandidate_some hpop
  have hnode_lt : node < orig.length := hInv.aliveLt node hmem
  have hnode_stack : node ∉ s.stack := fun h => hInv.disj node h hmem
  rw [p1Step_pop hpop]
  have hGlen : (removeNode s.graph (s.alive.erase node) node).length = s.graph.length :=
    removeNode_length _ _ _
  have hgetD_alive : ∀ i ∈ s.alive.erase node,
      (removeNode s.graph (s.alive.erase node) node).getD i ∅ =
        (s.graph.getD i ∅).erase node := by
    intro i hi
    have hlt : i < s.graph.length := by
      rw [hInv.glen]
      exact hInv.aliveLt i (Finset.mem_of_mem_erase hi)
    rw [removeNode_getD, if_pos hlt, if_pos hi]
  have hgetD_dead : ∀ i, i ∉ s.alive.erase node →
      (removeNode s.graph (s.alive.erase node) node).getD i ∅ = s.graph.getD i ∅ := by
    intro i hi
    by_cases hlen : i < s.graph.length
    · rw [removeNode_getD, if_pos hlen, if_neg hi]
    · rw [removeNode_getD, if_neg hlen,
        List.getD_eq_default _ _ (Nat.le_of_not_lt hlen)]
  refine ⟨⟨?_, ?_, ?_, ?_, ?_, ?_, ?_, ?_, ?_, ?_⟩, rfl, rfl, rfl⟩
  · show (removeNode s.graph (s.alive.erase node) node).length = orig.length
    rw [hGlen, hInv.glen]
  · intro i hi
    exact hInv.aliveLt i (Finset.mem_of_mem_erase hi)
  · intro i hi
    rcases List.mem_append.mp hi with h | h
    · exact hInv.stackLt i h
    · rw [List.mem_singleton.mp h]
      exact hnode_lt
  · rw [List.nodup_append]
    exact ⟨hInv.nodup, List.nodup_singleton node,
      fun x hx hx' => hnode_stack ((List.mem_singleton.mp hx') ▸ hx)⟩
  · intro i hi
    rcases List.mem_append.mp hi with h | h
    · intro hmem'
      exact hInv.disj i h (Finset.mem_of_mem_erase hmem')
    · rw [List.mem_singleton.mp h]
      exact Finset.not_mem_erase node s.alive
  · intro i hi
    rcases hInv.cover i hi with h | h
    · by_cases hin : i = node
      · right
        rw [hin]
        exact List.mem_append_right _ (List.mem_singleton_self node)
      · left
        exact Finset.mem_erase.mpr ⟨hin, h⟩
    · right
      exact List.mem_append_left _ h
  · intro i hi
    rw [hgetD_alive i hi, hInv.aliveG i (Finset.mem_of_mem_erase hi),
      Finset.erase_eq, sdiff_sdiff_left]
    congr 1
    rw [List.toFinset_append]
    simp
  · intro s₁ i s₂ hsplit
    rcases concat_decomp hsplit with ⟨h1, h2, _⟩ | ⟨s₃, _, h2⟩
    · subst h2
      subst h1
      rw [hgetD_dead i (Finset.not_mem_erase i s.alive)]
      exact hInv.aliveG i hmem
    · have hiStack : i ∈ s.stack := by
        rw [h2]
        exact List.mem_append_right _ (List.mem_cons_self i s₃)
      have hnot : i ∉ s.alive.erase node :=
        fun hmem' => hInv.disj i hiStack (Finset.mem_of_mem_erase hmem')
      rw [hgetD_dead i hnot]
      exact hInv.deadG s₁ i s₃ h2
  · intro s₁ i s₂ hsplit
    show ((removeNode s.graph (s.alive.erase node) node).getD i ∅).card < s.k
    rcases concat_decomp hsplit with ⟨h1, h2, _⟩ | ⟨s₃, _, h2⟩
    · subst h2
      rw [hgetD_dead i (Finset.not_mem_erase i s.alive)]
      exact hdeg
    · have hiStack : i ∈ s.stack := by
        rw [h2]
        exact List.mem_append_right _ (List.mem_cons_self i s₃)
      have hnot : i ∉ s.alive.erase node :=
        fun hmem' => hInv.disj i hiStack (Finset.mem_of_mem_erase hmem')
      rw [hgetD_dead i hnot]
      exact hInv.popDeg s₁ i s₃ h2
  · exact hInv.kProp

theorem inv_bump {orig : List (Finset Nat)} {s : P1State} (hInv : Inv orig s)
    (hnone : popCandidate s = none) (hne : s.alive.Nonempty)
    (horig : ∀ a : Nat, ∀ b ∈ orig.getD a ∅, b < orig.length)
    (hn : orig.length + 1 < usizeMax) :
    Inv orig (p1Step s) ∧ s.k < (p1Step s).k ∧ (p1Step s).alive = s.alive ∧
      ∃ x, popCandidate (p1Step s) = some x := by
  rw [p1Step_bump hnone]
  have hcard_orig : ∀ i : Nat, (orig.getD i ∅).card ≤ orig.length := by
    intro i
    have hsub : orig.getD i ∅ ⊆ Finset.range orig.length := by
      intro b hb
      exact Finset.mem_range.mpr (horig i b hb)
    calc (orig.getD i ∅).card ≤ (Finset.range orig.length).card :=
          Finset.card_le_card hsub
      _ = orig.length := Finset.card_range _
  have hdegB : ∀ i ∈ s.alive, degOf s.graph i ≤ orig.length := by
    intro i hi
    unfold degOf
    rw [hInv.aliveG i hi]
    exact le_trans (Finset.card_le_card Finset.sdiff_subset) (hcard_orig i)
  have hkB : s.k ≤ orig.length + 1 := by
    rcases hInv.kProp with h | ⟨i, _, hk⟩
    · omega
    · have := hcard_orig i
      omega
  have hall : ∀ i ∈ s.alive, s.k ≤ degOf s.graph i := popCandidate_none hnone
  have hlt : s.k < minKFold s := by
    have h1 : s.k + 1 ≤ minKFold s := by
      apply le_minKFold (by omega)
      intro node h
      have := hall node h
      omega
    omega
  have hfin : ∃ i ∈ s.alive, minKFold s = degOf s.graph i + 1 := by
    rcases minKFold_eq s with h | h
    · obtain ⟨i0, hi0⟩ := hne
      have h1 := minKFold_le hi0
      have h2 := hdegB i0 hi0
      rw [h] at h1
      omega
    · exact h
  refine ⟨⟨hInv.glen, hInv.aliveLt, hInv.stackLt, hInv.nodup, hInv.disj, hInv.cover,
    hInv.aliveG, hInv.deadG, ?_, ?_⟩, hlt, rfl, ?_⟩
  · intro s₁ i s₂ hsplit
    exact lt_trans (hInv.popDeg s₁ i s₂ hsplit) hlt
  · right
    obtain ⟨i, hi, hEq⟩ := hfin
    refine ⟨i, hInv.aliveLt i hi, ?_⟩
    have hle : degOf s.graph i ≤ (orig.getD i ∅).card := by
      unfold degOf
      rw [hInv.aliveG i hi]
      exact Finset.card_le_card Finset.sdiff_subset
    show minKFold s ≤ (orig.getD i ∅).card + 1
    omega
  · obtain ⟨i, hi, hEq⟩ := hfin
    refine @popCandidate_isSome_of { s with k := minKFold s } i hi ?_
    show degOf s.graph i < minKFold s
    omega

/-! Termination of the phase-1 loop within fuel 2 * n. -/

theorem phase1_empty {s : P1State} (he : s.alive = ∅) (f : Nat) :
    phase1 f s = some s := by
  cases f <;> simp [phase1, he]

theorem phase1_mono {f : Nat} {s r : P1State} (h : phase1 f s = some r) :
    phase1 (f + 1) s = some r := by
  induction f generalizing s with
  | zero =>
    by_cases he : s.alive = ∅
    · rw [phase1_empty he] at h
      rw [phase1_empty he]
      exact h
    · simp [phase1, he] at h
  | succ f ih =>
    by_cases he : s.alive = ∅
    · rw [phase1_empty he] at h
      rw [phase1_empty he]
      exact h
    · have h1 : phase1 (f + 1) s = phase1 f (p1Step s) := by simp [phase1, he]
      have h2 : phase1 (f + 1 + 1) s = phase1 (f + 1) (p1Step s) := by simp [phase1, he]
      rw [h2]
      exact ih (h1 ▸ h)

theorem phase1_mono_le {f f' : Nat} (hle : f ≤ f') {s r : P1State}
    (h : phase1 f s = some r) : phase1 f' s = some r := by
  induction hle with
  | refl => exact h
  | step _ ih => exact phase1_mono ih

theorem phase1_sound {orig : List (Finset Nat)}
    (horig : ∀ a : Nat, ∀ b ∈ orig.getD a ∅, b < orig.length)
    (hn : orig.length + 1 < usizeMax) :
    ∀ (m : Nat) (s : P1State), Inv orig s → s.alive.card ≤ m →
      ∃ s', phase1 (2 * m) s = some s' ∧ Inv orig s' ∧ s'.alive = ∅ ∧ s.k ≤ s'.k := by
  intro m
  induction m with
  | zero =>
    intro s hInv hcard
    have he : s.alive = ∅ := Finset.card_eq_zero.mp (Nat.le_zero.mp hcard)
    exact ⟨s, phase1_empty he _, hInv, he, le_rfl⟩
  | succ m ih =>
    intro s hInv hcard
    by_cases he : s.alive = ∅
    · exact ⟨s, phase1_empty he _, hInv, he, le_rfl⟩
    have hne : s.alive.Nonempty := Finset.nonempty_iff_ne_empty.mpr he
    have hpos : 1 ≤ s.alive.card := Finset.card_pos.mpr hne
    have hfuel : 2 * (m + 1) = 2 * m + 1 + 1 := by omega
    have hstep1 : phase1 (2 * m + 1 + 1) s = phase1 (2 * m + 1) (p1Step s) := by
      simp [phase1, he]
    cases hc : popCandidate s with
    | some node =>
      obtain ⟨hInv', hk', halive', _⟩ := inv_pop hInv hc
      have hcard' : (p1Step s).alive.card ≤ m := by
        rw [halive', Finset.card_erase_of_mem (popCandidate_some hc).1]
        omega
      obtain ⟨s', hp, hI, hA, hK⟩ := ih (p1Step s) hInv' hcard'
      refine ⟨s', ?_, hI, hA, ?_⟩
      · rw [hfuel, hstep1]
        exact phase1_mono_le (by omega) hp
      · rw [← hk']
        exact hK
    | none =>
      obtain ⟨hInv', hki, halive', hsome'⟩ := inv_bump hInv hc hne horig hn
      have he1 : (p1Step s).alive ≠ ∅ := by
        rw [halive']
        exact he
      have hstep2 : phase1 (2 * m + 1) (p1Step s) = phase1 (2 * m) (p1Step (p1Step s)) := by
        simp [phase1, he1]
      obtain ⟨node, hc2⟩ := hsome'
      obtain ⟨hInv'', hk'', halive'', _⟩ := inv_pop hInv' hc2
      have hmem2 : node ∈ s.alive := by
        rw [← halive']
        exact (popCandidate_some hc2).1
      have hcard'' : (p1Step (p1Step s)).alive.card ≤ m := by
        rw [halive'', halive', Finset.card_erase_of_mem hmem2]
        omega
      obtain ⟨s', hp, hI, hA, hK⟩ := ih (p1Step (p1Step s)) hInv'' hcard''
      refine ⟨s', ?_, hI, hA, ?_⟩
      · rw [hfuel, hstep1, hstep2]
        exact hp
      · have h3 : (p1Step s).k ≤ s'.k := by
          rw [← hk'']
          exact hK
        omega

/-! Correctness of the phase-2 greedy assignment. -/

theorem assignColors_cons (k : Nat) (graph : List (Finset Nat)) (node : Nat)
    (rest : List Nat) (colors : List Nat)
    (h : (Finset.range k \
        (graph.getD node ∅).image fun other => colors.getD other usizeMax).Nonempty) :
    assignColors k graph (node :: rest) colors =
      assignColors k graph rest
        (colors.set node ((Finset.range k \
          (graph.getD node ∅).image fun other => colors.getD other usizeMax).min' h)) := by
  simp only [assignColors]
  rw [dif_pos h]

theorem assign_sound (k : Nat) (graph : List (Finset Nat)) :
    ∀ (l : List Nat) (colors : List Nat),
      l.Nodup →
      (∀ x ∈ l, x < colors.length) →
      (∀ x ∈ l, (graph.getD x ∅).card < k) →
      (∀ x ∈ l, colors.getD x usizeMax = usizeMax) →
      k ≤ usizeMax →
      ∃ colors',
        assignColors k graph l colors = some colors' ∧
        colors'.length = colors.length ∧
        (∀ i, i ∉ l → colors'.getD i usizeMax = colors.getD i usizeMax) ∧
        (∀ x ∈ l, colors'.getD x usizeMax < k) ∧
        (∀ l₁ x l₂, l = l₁ ++ x :: l₂ → ∀ other ∈ graph.getD x ∅, other ∈ l₁ →
          colors'.getD other usizeMax ≠ colors'.getD x usizeMax) ∧
        (∀ x ∈ l, ∀ other ∈ graph.getD x ∅, other ∉ l →
          colors.getD other usizeMax ≠ usizeMax →
          colors'.getD x usizeMax ≠ colors.getD other usizeMax) := by
  intro l
  induction l with
  | nil =>
    intro colors _ _ _ _ _
    refine ⟨colors, rfl, rfl, fun i _ => rfl, ?_, ?_, ?_⟩
    · intro x hx
      cases hx
    · intro l₁ x l₂ hsplit
      cases l₁ <;> simp at hsplit
    · intro x hx
      cases hx
  | cons node rest ih =>
    intro colors hnodup hlen hdeg hunass hk
    have hnode_len : node < colors.length := hlen node (List.mem_cons_self _ _)
    have hnode_rest : node ∉ rest := (List.nodup_cons.mp hnodup).1
    have hrest_nodup : rest.Nodup := (List.nodup_cons.mp hnodup).2
    set img := (graph.getD node ∅).image (fun other => colors.getD other usizeMax)
      with himg
    have himg_card : img.card < k :=
      lt_of_le_of_lt Finset.card_image_le (hdeg node (List.mem_cons_self _ _))
    have hallowed : (Finset.range k \ img).Nonempty := by
      apply Finset.card_pos.mp
      have hge := Finset.le_card_sdiff img (Finset.range k)
      rw [Finset.card_range] at hge
      omega
    set c := (Finset.range k \ img).min' hallowed with hc
    have hc_mem : c ∈ Finset.range k \ img := Finset.min'_mem _ _
    have hc_lt : c < k := Finset.mem_range.mp (Finset.mem_sdiff.mp hc_mem).1
    have hc_notin : c ∉ img := (Finset.mem_sdiff.mp hc_mem).2
    have hc_ne : ∀ other ∈ graph.getD node ∅, colors.getD other usizeMax ≠ c := by
      intro other ho h
      exact hc_notin (Finset.mem_image.mpr ⟨other, ho, h⟩)
    have hc_ne_uM : c ≠ usizeMax := by omega
    obtain ⟨colors', hsome, hlen', hB, hC, hD, hE⟩ :=
      ih (colors.set node c) hrest_nodup
        (by
          intro x hx
          rw [List.length_set]
          exact hlen x (List.mem_cons_of_mem _ hx))
        (fun x hx => hdeg x (List.mem_cons_of_mem _ hx))
        (by
          intro x hx
          have hxn : node ≠ x := fun h => hnode_rest (h ▸ hx)
          rw [getD_set_ne hxn]
          exact hunass x (List.mem_cons_of_mem _ hx))
        hk
    have hset_node : (colors.set node c).getD node usizeMax = c :=
      getD_set_self hnode_len c
    have hfix_node : colors'.getD node usizeMax = c := by
      rw [hB node hnode_rest, hset_node]
    refine ⟨colors', ?_, ?_, ?_, ?_, ?_, ?_⟩
    · rw [assignColors_cons k graph node rest colors hallowed]
      exact hsome
    · rw [hlen', List.length_set]
    · intro i hi
      have hine : node ≠ i := fun h => hi (h ▸ List.mem_cons_self _ _)
      have hirest : i ∉ rest := fun h => hi (List.mem_cons_of_mem _ h)
      rw [hB i hirest, getD_set_ne hine]
    · intro x hx
      rcases List.mem_cons.mp hx with rfl | hx'
      · rw [hfix_node]
        exact hc_lt
      · exact hC x hx'
    · intro l₁ x l₂ hsplit other hother hmem₁
      cases l₁ with
      | nil =>
        cases hmem₁
      | cons y l₁' =>
        rw [List.cons_append] at hsplit
        injection hsplit with h1 h2
        subst h1
        have hx_rest : x ∈ rest := by
          rw [h2]
          exact List.mem_append_right _ (List.mem_cons_self _ _)
        rcases List.mem_cons.mp hmem₁ with rfl | hother₁
        · have h5 := hE x hx_rest other hother hnode_rest
            (by rw [hset_node]; exact hc_ne_uM)
          rw [hset_node] at h5
          rw [hfix_node]
          exact fun hq => h5 hq.symm
        · exact hD l₁' x l₂ h2 other hother hother₁
    · intro x hx other hother hnotin hassigned
      rcases List.mem_cons.mp hx with rfl | hx'
      · rw [hfix_node]
        exact fun hq => hc_ne other hother hq.symm
      · have hother_ne : node ≠ other :=
          fun h => hnotin (h ▸ List.mem_cons_self _ _)
        have h4 : (colors.set node c).getD other usizeMax = colors.getD other usizeMax :=
          getD_set_ne hother_ne c
        have h5 := hE x hx' other hother
          (fun h => hnotin (List.mem_cons_of_mem _ h)) (by rw [h4]; exact hassigned)
        rw [h4] at h5
        exact h5

/-! The spec's description of phase 2 over the original adjacency
computes the same colors as the implementation's frozen working
adjacency. -/

theorem specAssign_cons (k : Nat) (orig : List (Finset Nat)) (node : Nat)
    (rest colors : List Nat)
    (h : (Finset.range k \
        (((orig.getD node ∅).image fun other =>
          colors.getD other usizeMax).erase usizeMax)).Nonempty) :
    specAssign k orig (node :: rest) colors =
      specAssign k orig rest
        (colors.set node ((Finset.range k \
          (((orig.getD node ∅).image fun other =>
            colors.getD other usizeMax).erase usizeMax)).min' h)) := by
  simp only [specAssign]
  rw [dif_pos h]

theorem spec_eq_impl (k : Nat) (orig work : List (Finset Nat)) (hk : k ≤ usizeMax) :
    ∀ (l colors : List Nat),
      l.Nodup →
      (∀ x ∈ l, colors.getD x usizeMax = usizeMax) →
      (∀ x ∈ l, work.getD x ∅ ⊆ orig.getD x ∅) →
      (∀ l₁ x l₂, l = l₁ ++ x :: l₂ → ∀ other ∈ orig.getD x ∅,
        other ∉ work.getD x ∅ → other ∈ l₂) →
      specAssign k orig l colors = assignColors k work l colors := by
  intro l
  induction l with
  | nil =>
    intro colors _ _ _ _
    rfl
  | cons node rest ih =>
    intro colors hnodup hunass hsub hrel
    have hnode_rest : node ∉ rest := (List.nodup_cons.mp hnodup).1
    have hrest_nodup : rest.Nodup := (List.nodup_cons.mp hnodup).2
    have hsetEq : Finset.range k \
        (((orig.getD node ∅).image fun other =>
          colors.getD other usizeMax).erase usizeMax) =
        Finset.range k \
          ((work.getD node ∅).image fun other => colors.getD other usizeMax) := by
      apply Finset.ext
      intro x
      simp only [Finset.mem_sdiff, Finset.mem_range, Finset.mem_erase, Finset.mem_image]
      constructor
      · rintro ⟨hxk, hnot⟩
        refine ⟨hxk, ?_⟩
        rintro ⟨other, ho, hEq⟩
        apply hnot
        refine ⟨by omega, other, hsub node (List.mem_cons_self _ _) ho, hEq⟩
      · rintro ⟨hxk, hnot⟩
        refine ⟨hxk, ?_⟩
        rintro ⟨hxne, other, ho, hEq⟩
        by_cases hw : other ∈ work.getD node ∅
        · exact hnot ⟨other, hw, hEq⟩
        · have hrest : other ∈ rest := hrel [] node rest rfl other ho hw
          have hu := hunass other (List.mem_cons_of_mem _ hrest)
          rw [hu] at hEq
          exact hxne hEq.symm
    by_cases hallowed : (Finset.range k \
        ((work.getD node ∅).image fun other => colors.getD other usizeMax)).Nonempty
    · have hallowed' : (Finset.range k \
          (((orig.getD node ∅).image fun other =>
            colors.getD other usizeMax).erase usizeMax)).Nonempty := by
        rw [hsetEq]
        exact hallowed
      rw [specAssign_cons k orig node rest colors hallowed',
        assignColors_cons k work node rest colors hallowed]
      have hmin : (Finset.range k \
          (((orig.getD node ∅).image fun other =>
            colors.getD other usizeMax).erase usizeMax)).min' hallowed' =
          (Finset.range k \
            ((work.getD node ∅).image fun other =>
              colors.getD other usizeMax)).min' hallowed := by
        apply le_antisymm
        · apply Finset.min'_le
          rw [hsetEq]
          exact Finset.min'_mem _ hallowed
        · apply Finset.min'_le
          rw [← hsetEq]
          exact Finset.min'_mem _ hallowed'
      rw [hmin]
      apply ih
      · exact hrest_nodup
      · intro x hx
        have hxn : node ≠ x := fun h => hnode_rest (h ▸ hx)
        rw [getD_set_ne hxn]
        exact hunass x (List.mem_cons_of_mem _ hx)
      · intro x hx
        exact hsub x (List.mem_cons_of_mem _ hx)
      · intro l₁ x l₂ hsplit other ho hw
        exact hrel (node :: l₁) x l₂ (by rw [List.cons_append, hsplit]) other ho hw
    · have hallowed' : ¬ (Finset.range k \
          (((orig.getD node ∅).image fun other =>
            colors.getD other usizeMax).erase usizeMax)).Nonempty := by
        rw [hsetEq]
        exact hallowed
      simp only [specAssign, assignColors]
      rw [dif_neg hallowed', dif_neg hallowed]

/-! End-to-end facts about minimal_coloring on a valid graph. -/

theorem inv_init (g : Graph) : Inv g.nodes (initState g) := by
  refine ⟨rfl, ?_, ?_, List.nodup_nil, ?_, ?_, ?_, ?_, ?_, Or.inl rfl⟩
  · intro i hi
    exact Finset.mem_range.mp hi
  · intro i hi
    cases hi
  · intro i hi
    cases hi
  · intro i hi
    exact Or.inl (Finset.mem_range.mpr hi)
  · intro i _
    show g.nodes.getD i ∅ = g.nodes.getD i ∅ \ ([] : List Nat).toFinset
    rw [List.toFinset_nil, Finset.sdiff_empty]
  · intro s₁ i s₂ h
    have hlen := congrArg List.length h
    rw [show (initState g).stack = [] from rfl] at hlen
    simp at hlen
    omega
  · intro s₁ i s₂ h
    have hlen := congrArg List.length h
    rw [show (initState g).stack = [] from rfl] at hlen
    simp at hlen
    omega

theorem card_getD_le {orig : List (Finset Nat)}
    (horig : ∀ a : Nat, ∀ b ∈ orig.getD a ∅, b < orig.length) (i : Nat) :
    (orig.getD i ∅).card ≤ orig.length := by
  have hsub : orig.getD i ∅ ⊆ Finset.range orig.length :=
    fun b hb => Finset.mem_range.mpr (horig i b hb)
  calc (orig.getD i ∅).card ≤ (Finset.range orig.length).card :=
        Finset.card_le_card hsub
    _ = orig.length := Finset.card_range _

theorem minimalColoring_spec (g : Graph) (hg : g.checkInvariants)
    (hn : g.nodes.length + 1 < usizeMax) :
    ∃ (s' : P1State) (colors : List Nat),
      phase1 (2 * g.nodes.length) (initState g) = some s' ∧
      Inv g.nodes s' ∧ s'.alive = ∅ ∧ s'.graph.length = g.nodes.length ∧
      assignColors s'.k s'.graph s'.stack.reverse
        (List.replicate s'.graph.length usizeMax) = some colors ∧
      minimalColoring g = some ⟨s'.k, colors⟩ ∧
      colors.length = g.nodes.length ∧
      (∀ x, x < g.nodes.length → colors.getD x usizeMax < s'.k) ∧
      (∀ a b : Nat, b ∈ g.nodes.getD a ∅ → a ≠ b →
        colors.getD a usizeMax ≠ colors.getD b usizeMax) ∧
      (g.nodes.length = 0 → s'.k = 0) ∧
      (g.nodes.length ≠ 0 → 1 ≤ s'.k) ∧
      specAssign s'.k g.nodes s'.stack.reverse
        (List.replicate s'.graph.length usizeMax) = some colors := by
  have horig : ∀ a : Nat, ∀ b ∈ g.nodes.getD a ∅, b < g.nodes.length := by
    intro a b hb
    by_cases ha : a < g.nodes.length
    · exact (hg a (Finset.mem_range.mpr ha) b hb).1
    · rw [List.getD_eq_default _ _ (Nat.le_of_not_lt ha)] at hb
      exact absurd hb (Finset.not_mem_empty b)
  have hsym : ∀ a : Nat, ∀ b ∈ g.nodes.getD a ∅, a ∈ g.nodes.getD b ∅ := by
    intro a b hb
    by_cases ha : a < g.nodes.length
    · exact (hg a (Finset.mem_range.mpr ha) b hb).2
    · rw [List.getD_eq_default _ _ (Nat.le_of_not_lt ha)] at hb
      exact absurd hb (Finset.not_mem_empty b)
  obtain ⟨s', hp, hI, hA, _⟩ :=
    phase1_sound horig hn g.nodes.length (initState g) (inv_init g)
      (by rw [show (initState g).alive = Finset.range g.nodes.length from rfl,
        Finset.card_range])
  have hstack_all : ∀ i, i < g.nodes.length → i ∈ s'.stack := by
    intro i hi
    rcases hI.cover i hi with h | h
    · rw [hA] at h
      exact absurd h (Finset.not_mem_empty i)
    · exact h
  have hkB : s'.k ≤ g.nodes.length + 1 := by
    rcases hI.kProp with h | ⟨i, _, hk⟩
    · omega
    · have := card_getD_le horig i
      omega
  have hkuM : s'.k ≤ usizeMax := by omega
  have hdegS : ∀ x ∈ s'.stack.reverse, (s'.graph.getD x ∅).card < s'.k := by
    intro x hx
    obtain ⟨s₁, s₂, heq⟩ := List.append_of_mem (List.mem_reverse.mp hx)
    exact hI.popDeg s₁ x s₂ heq
  have hsubS : ∀ x ∈ s'.stack.reverse, s'.graph.getD x ∅ ⊆ g.nodes.getD x ∅ := by
    intro x hx
    obtain ⟨s₁, s₂, heq⟩ := List.append_of_mem (List.mem_reverse.mp hx)
    rw [hI.deadG s₁ x s₂ heq]
    exact Finset.sdiff_subset
  obtain ⟨colors, hsome, hclen, hB, hC, hD, _⟩ :=
    assign_sound s'.k s'.graph s'.stack.reverse
      (List.replicate s'.graph.length usizeMax)
      (List.nodup_reverse.mpr hI.nodup)
      (by
        intro x hx
        rw [List.length_replicate, hI.glen]
        exact hI.stackLt x (List.mem_reverse.mp hx))
      hdegS
      (fun x _ => getD_replicate _ _ _)
      hkuM
  have hlenc : colors.length = g.nodes.length := by
    rw [hclen, List.length_replicate, hI.glen]
  have hmc : minimalColoring g = some ⟨s'.k, colors⟩ := by
    unfold minimalColoring
    rw [if_pos hg, hp]
    show (match assignColors s'.k s'.graph s'.stack.reverse
        (List.replicate s'.graph.length usizeMax) with
      | none => none
      | some colors => some (⟨s'.k, colors⟩ : Coloring)) = some ⟨s'.k, colors⟩
    rw [hsome]
  have hbound : ∀ x, x < g.nodes.length → colors.getD x usizeMax < s'.k := by
    intro x hx
    exact hC x (List.mem_reverse.mpr (hstack_all x hx))
  have hdiff : ∀ a b : Nat, b ∈ g.nodes.getD a ∅ → a ≠ b →
      colors.getD a usizeMax ≠ colors.getD b usizeMax := by
    intro a b hb hne
    have ha_lt : a < g.nodes.length := by
      by_contra h
      rw [List.getD_eq_default _ _ (Nat.le_of_not_lt h)] at hb
      exact absurd hb (Finset.not_mem_empty b)
    have hb_lt : b < g.nodes.length := horig a b hb
    have ha_st : a ∈ s'.stack := hstack_all a ha_lt
    have hb_st : b ∈ s'.stack := hstack_all b hb_lt
    rcases mem_split_order ha_st hb_st hne with ⟨s₁, s₂, heq, hin⟩ |
      ⟨s₁, s₂, heq, hin⟩
    · have hga : s'.graph.getD a ∅ = g.nodes.getD a ∅ \ s₁.toFinset :=
        hI.deadG s₁ a s₂ heq
      have hbnotin : b ∉ s₁ := by
        have hnd := hI.nodup
        rw [heq, List.nodup_append] at hnd
        exact fun hbs₁ => hnd.2.2 hbs₁ (List.mem_cons_of_mem _ hin)
      have hbmem : b ∈ s'.graph.getD a ∅ := by
        rw [hga]
        exact Finset.mem_sdiff.mpr ⟨hb, fun h => hbnotin (List.mem_toFinset.mp h)⟩
      have hD' := hD s₂.reverse a s₁.reverse (reverse_split heq) b hbmem
        (List.mem_reverse.mpr hin)
      exact fun hq => hD' hq.symm
    · have hga : s'.graph.getD b ∅ = g.nodes.getD b ∅ \ s₁.toFinset :=
        hI.deadG s₁ b s₂ heq
      have hanotin : a ∉ s₁ := by
        have hnd := hI.nodup
        rw [heq, List.nodup_append] at hnd
        exact fun has₁ => hnd.2.2 has₁ (List.mem_cons_of_mem _ hin)
      have hamem : a ∈ s'.graph.getD b ∅ := by
        rw [hga]
        exact Finset.mem_sdiff.mpr ⟨hsym a b hb, fun h => hanotin (List.mem_toFinset.mp h)⟩
      exact hD s₂.reverse b s₁.reverse (reverse_split heq) a hamem
        (List.mem_reverse.mpr hin)
  have hk0 : g.nodes.length = 0 → s'.k = 0 := by
    intro hzero
    rcases hI.kProp with h | ⟨i, hi, _⟩
    · exact h
    · omega
  have hk1 : g.nodes.length ≠ 0 → 1 ≤ s'.k := by
    intro hnz
    have h0 : 0 ∈ s'.stack := hstack_all 0 (Nat.pos_of_ne_zero hnz)
    obtain ⟨s₁, s₂, heq⟩ := List.append_of_mem h0
    have := hI.popDeg s₁ 0 s₂ heq
    omega
  have hspec : specAssign s'.k g.nodes s'.stack.reverse
      (List.replicate s'.graph.length usizeMax) = some colors := by
    rw [spec_eq_impl s'.k g.nodes s'.graph hkuM s'.stack.reverse
      (List.replicate s'.graph.length usizeMax)
      (List.nodup_reverse.mpr hI.nodup)
      (fun x _ => getD_replicate _ _ _)
      hsubS
      ?_]
    · exact hsome
    · intro l₁ x l₂ hsplit other ho hw
      have hstk : s'.stack = l₂.reverse ++ x :: l₁.reverse := reverse_split_rev hsplit
      have hgx : s'.graph.getD x ∅ = g.nodes.getD x ∅ \ l₂.reverse.toFinset :=
        hI.deadG l₂.reverse x l₁.reverse hstk
      by_contra hno
      apply hw
      rw [hgx]
      refine Finset.mem_sdiff.mpr ⟨ho, fun hmem => ?_⟩
      exact hno (List.mem_reverse.mp (List.mem_toFinset.mp hmem))
  exact ⟨s', colors, hp, hI, hA, by rw [hI.glen], hsome, hmc, hlenc, hbound, hdiff,
    hk0, hk1, hspec⟩

/-! Claim theorems about the coloring engine. -/

/-- C1 (amended): for every graph that satisfies the symmetry and
bounds invariants and stores no self-loop, minimal_coloring returns a
valid coloring: the colors of the endpoints of every edge differ and
every node's color lies below k.  The no-self-loop hypothesis is
forced by the counterexample below; the size hypothesis reflects
usize arithmetic. -/
theorem minimalColoring_valid (g : Graph) (hg : g.checkInvariants)
    (hs : ∀ a ∈ Finset.range g.nodes.length, a ∉ g.nodes.getD a ∅)
    (hn : g.nodes.length + 1 < usizeMax) :
    ∃ c : Coloring, minimalColoring g = some c ∧
      (∀ a b : Nat, b ∈ g.nodes.getD a ∅ → c.nodes.getD a 0 ≠ c.nodes.getD b 0) ∧
      (∀ a : Nat, a < g.nodes.length → c.nodes.getD a 0 < c.k) := by
  obtain ⟨s', colors, _, _, _, _, _, hmc, hlenc, hbound, hdiff, _, _, _⟩ :=
    minimalColoring_spec g hg hn
  refine ⟨⟨s'.k, colors⟩, hmc, ?_, ?_⟩
  · intro a b hb
    have ha_lt : a < g.nodes.length := by
      by_contra h
      rw [List.getD_eq_default _ _ (Nat.le_of_not_lt h)] at hb
      exact absurd hb (Finset.not_mem_empty b)
    have hb_lt : b < g.nodes.length := (hg a (Finset.mem_range.mpr ha_lt) b hb).1
    have hne : a ≠ b := by
      intro h
      apply hs a (Finset.mem_range.mpr ha_lt)
      subst h
      exact hb
    have hcd := hdiff a b hb hne
    show colors.getD a 0 ≠ colors.getD b 0
    rw [getD_congr colors (show a < colors.length by rw [hlenc]; exact ha_lt) 0 usizeMax,
      getD_congr colors (show b < colors.length by rw [hlenc]; exact hb_lt) 0 usizeMax]
    exact hcd
  · intro a ha
    show colors.getD a 0 < s'.k
    rw [getD_congr colors (by rw [hlenc]; exact ha) 0 usizeMax]
    exact hbound a ha

/-- Counterexample to C1 as stated: the one-node graph whose node is
its own neighbor passes check_invariants, yet the edge (0,0) has equal
colors at its endpoints, so the coloring-validity statement fails
without a no-self-loop hypothesis. -/
theorem selfLoop_coloring_cex :
    Graph.checkInvariants ⟨[{0}]⟩ ∧
    0 ∈ (Graph.mk [{0}]).nodes.getD 0 ∅ ∧
    minimalColoring ⟨[{0}]⟩ = some ⟨2, [0]⟩ ∧
    ¬ ((Coloring.mk 2 [0]).nodes.getD 0 0 ≠ (Coloring.mk 2 [0]).nodes.getD 0 0) :=
  ⟨by decide, by decide, by decide, fun h => h rfl⟩

/-- Witness for C1 at the triangle graph. -/
theorem minimalColoring_valid_witness :
    ∃ c : Coloring, minimalColoring ⟨[{1, 2}, {0, 2}, {0, 1}]⟩ = some c ∧
      (∀ a b : Nat, b ∈ (Graph.mk [{1, 2}, {0, 2}, {0, 1}]).nodes.getD a ∅ →
        c.nodes.getD a 0 ≠ c.nodes.getD b 0) ∧
      (∀ a : Nat, a < (Graph.mk [{1, 2}, {0, 2}, {0, 1}]).nodes.length →
        c.nodes.getD a 0 < c.k) :=
  minimalColoring_valid ⟨[{1, 2}, {0, 2}, {0, 1}]⟩ (by decide) (by decide) (by decide)

/-- C2 (amended): minimal_coloring on the graph with n nodes and no
edges returns k = 0 when n = 0 and k = 1 when n ≥ 1 (not k = 0 as the
spec claims: once a node exists, the first scan cannot eliminate it
while k = 0, so k is raised to 1). -/
theorem edgeless_coloring_k (n : Nat) (hn : n + 1 < usizeMax) :
    ∃ c : Coloring, minimalColoring (edgeless n) = some c ∧
      c.k = if n = 0 then 0 else 1 := by
  have hgetD : ∀ a : Nat, (edgeless n).nodes.getD a ∅ = ∅ := by
    intro a
    exact getD_replicate n a ∅
  have hlen : (edgeless n).nodes.length = n := List.length_replicate n ∅
  have hg : (edgeless n).checkInvariants := by
    intro a _ b hb
    rw [hgetD a] at hb
    exact absurd hb (Finset.not_mem_empty b)
  obtain ⟨s', colors, _, hI, _, _, _, hmc, _, _, _, hk0, hk1, _⟩ :=
    minimalColoring_spec (edgeless n) hg (by rw [hlen]; exact hn)
  refine ⟨⟨s'.k, colors⟩, hmc, ?_⟩
  show s'.k = if n = 0 then 0 else 1
  by_cases hz : n = 0
  · rw [if_pos hz]
    exact hk0 (by rw [hlen]; exact hz)
  · rw [if_neg hz]
    have h1 : 1 ≤ s'.k := hk1 (by rw [hlen]; exact hz)
    have h2 : s'.k ≤ 1 := by
      rcases hI.kProp with h | ⟨i, _, hk⟩
      · omega
      · rw [hgetD i, Finset.card_empty] at hk
        omega
    omega

/-- Counterexample to C2 as stated: the edgeless graph with one node
converges to k = 1, not k = 0. -/
theorem edgeless_one_k_cex :
    (minimalColoring (edgeless 1)).map Coloring.k = some 1 ∧
    (minimalColoring (edgeless 1)).map Coloring.k ≠ some 0 := by
  exact ⟨by decide, by decide⟩

/-- Witness for C2 (amended) at n = 2. -/
theorem edgeless_coloring_k_witness :
    ∃ c : Coloring, minimalColoring (edgeless 2) = some c ∧
      c.k = if 2 = 0 then 0 else 1 :=
  edgeless_coloring_k 2 (by decide)

/-- C3: the k returned by minimal_coloring never exceeds the maximum
node degree of the graph plus one. -/
theorem k_le_maxDegree_succ (g : Graph) (hg : g.checkInvariants)
    (hn : g.nodes.length + 1 < usizeMax) :
    ∃ c : Coloring, minimalColoring g = some c ∧ c.k ≤ maxDegree g + 1 := by
  obtain ⟨s', colors, _, hI, _, _, _, hmc, _, _, _, _, _, _⟩ :=
    minimalColoring_spec g hg hn
  refine ⟨⟨s'.k, colors⟩, hmc, ?_⟩
  show s'.k ≤ maxDegree g + 1
  rcases hI.kProp with h | ⟨i, hi, hk⟩
  · omega
  · have hle : (g.nodes.getD i ∅).card ≤ maxDegree g := by
      unfold maxDegree
      exact @Finset.le_sup _ _ _ _ _ (fun j => (g.nodes.getD j ∅).card) i
        (Finset.mem_range.mpr hi)
    omega

/-- Witness for C3 at the two-node path. -/
theorem k_le_maxDegree_succ_witness :
    ∃ c : Coloring, minimalColoring ⟨[{1}, {0}]⟩ = some c ∧
      c.k ≤ maxDegree ⟨[{1}, {0}]⟩ + 1 :=
  k_le_maxDegree_succ ⟨[{1}, {0}]⟩ (by decide) (by decide)

/-- C5: the spec's reference description of phase 2 — smallest color
of 0..k not assigned to any neighbor in the original adjacency, with
sentinel-carrying neighbors imposing no restriction — computes exactly
the colors the implementation computes from the mutated working
adjacency. -/
theorem specAssign_refines (g : Graph) (hg : g.checkInvariants)
    (hn : g.nodes.length + 1 < usizeMax) :
    ∃ (s' : P1State) (colors : List Nat),
      phase1 (2 * g.nodes.length) (initState g) = some s' ∧
      assignColors s'.k s'.graph s'.stack.reverse
        (List.replicate s'.graph.length usizeMax) = some colors ∧
      specAssign s'.k g.nodes s'.stack.reverse
        (List.replicate s'.graph.length usizeMax) = some colors ∧
      minimalColoring g = some ⟨s'.k, colors⟩ := by
  obtain ⟨s', colors, hp, _, _, _, hsome, hmc, _, _, _, _, _, hspec⟩ :=
    minimalColoring_spec g hg hn
  exact ⟨s', colors, hp, hsome, hspec, hmc⟩

/-- Witness for C5 at the two-node path. -/
theorem specAssign_refines_witness :
    ∃ (s' : P1State) (colors : List Nat),
      phase1 (2 * (Graph.mk [{1}, {0}]).nodes.length) (initState ⟨[{1}, {0}]⟩) =
        some s' ∧
      assignColors s'.k s'.graph s'.stack.reverse
        (List.replicate s'.graph.length usizeMax) = some colors ∧
      specAssign s'.k (Graph.mk [{1}, {0}]).nodes s'.stack.reverse
        (List.replicate s'.graph.length usizeMax) = some colors ∧
      minimalColoring ⟨[{1}, {0}]⟩ = some ⟨s'.k, colors⟩ :=
  specAssign_refines ⟨[{1}, {0}]⟩ (by decide) (by decide)

/-- C6: at the end of phase 1 every popped node keeps at most k - 1
recorded neighbors, so at least one of the k colors is free and the
first-free-color selection of phase 2 never fails. -/
theorem assign_never_fails (g : Graph) (hg : g.checkInvariants)
    (hn : g.nodes.length + 1 < usizeMax) :
    ∃ s' : P1State,
      phase1 (2 * g.nodes.length) (initState g) = some s' ∧
      (∀ s₁ x s₂, s'.stack = s₁ ++ x :: s₂ → (s'.graph.getD x ∅).card + 1 ≤ s'.k) ∧
      ∃ colors, assignColors s'.k s'.graph s'.stack.reverse
        (List.replicate s'.graph.length usizeMax) = some colors := by
  obtain ⟨s', colors, hp, hI, _, _, hsome, _, _, _, _, _, _, _⟩ :=
    minimalColoring_spec g hg hn
  refine ⟨s', hp, ?_, colors, hsome⟩
  intro s₁ x s₂ heq
  have := hI.popDeg s₁ x s₂ heq
  omega

/-- Witness for C6 at the two-node complete graph. -/
theorem assign_never_fails_witness :
    ∃ s' : P1State,
      phase1 (2 * (Graph.mk [{1}, {0}]).nodes.length) (initState ⟨[{1}, {0}]⟩) =
        some s' ∧
      (∀ s₁ x s₂, s'.stack = s₁ ++ x :: s₂ →
        (s'.graph.getD x ∅).card + 1 ≤ s'.k) ∧
      ∃ colors, assignColors s'.k s'.graph s'.stack.reverse
        (List.replicate s'.graph.length usizeMax) = some colors :=
  assign_never_fails ⟨[{1}, {0}]⟩ (by decide) (by decide)

/-- C7: minimal_coloring terminates and succeeds on every graph
satisfying the invariants; its phase-1 loop needs at most 2 * n
iterations because every iteration pops a node or raises k, and a
raise is immediately followed by a pop. -/
theorem minimalColoring_total (g : Graph) (hg : g.checkInvariants)
    (hn : g.nodes.length + 1 < usizeMax) :
    ∃ c : Coloring, minimalColoring g = some c := by
  obtain ⟨s', colors, _, _, _, _, _, hmc, _, _, _, _, _, _⟩ :=
    minimalColoring_spec g hg hn
  exact ⟨⟨s'.k, colors⟩, hmc⟩

/-- Witness for C7 at a three-node edgeless graph. -/
theorem minimalColoring_total_witness :
    ∃ c : Coloring, minimalColoring ⟨[∅, ∅, ∅]⟩ = some c :=
  minimalColoring_total ⟨[∅, ∅, ∅]⟩ (by decide) (by decide)

/-- C10: minimal_coloring returns k = 0 exactly when the graph has no
nodes; any node forces k to be raised to at least 1 before it can be
eliminated. -/
theorem k_zero_iff_no_nodes (g : Graph) (hg : g.checkInvariants)
    (hn : g.nodes.length + 1 < usizeMax) :
    ∃ c : Coloring, minimalColoring g = some c ∧
      (c.k = 0 ↔ g.nodes.length = 0) := by
  obtain ⟨s', colors, _, _, _, _, _, hmc, _, _, _, hk0, hk1, _⟩ :=
    minimalColoring_spec g hg hn
  refine ⟨⟨s'.k, colors⟩, hmc, ?_⟩
  show s'.k = 0 ↔ g.nodes.length = 0
  constructor
  · intro h
    by_contra hnz
    have := hk1 hnz
    omega
  · exact hk0

/-- Witness for C10 at a one-node graph. -/
theorem k_zero_iff_no_nodes_witness :
    ∃ c : Coloring, minimalColoring ⟨[∅]⟩ = some c ∧
      (c.k = 0 ↔ (Graph.mk [∅]).nodes.length = 0) :=
  k_zero_iff_no_nodes ⟨[∅]⟩ (by decide) (by decide)

end Graphc
